import Mathlib

/-!
Shallow embedding of the query-cleaning subsystem of conf2vmrule.py
(the label-matcher scanner, splitter, classifier and reconstructor),
together with theorems settling the spec claims about it.

Strings are modelled as lists of characters; the Python functions are
translated branch by branch. Brace characters inside Lean string and
character literals are written with hexadecimal escapes.
-/

namespace Conf2VMRule

/-- ASCII whitespace set of Python str.strip and of the regex class backslash-s. -/
def isSpace (c : Char) : Bool :=
  c = ' ' || c = '\t' || c = '\n' || c = '\r' || c = '\x0b' || c = '\x0c'

/-- Python str.strip: drop leading whitespace. -/
def stripLeft (s : List Char) : List Char := s.dropWhile isSpace

/-- Python str.strip: drop trailing whitespace. -/
def stripRight (s : List Char) : List Char := (s.reverse.dropWhile isSpace).reverse

/-- Python str.strip: drop leading and trailing whitespace. -/
def strip (s : List Char) : List Char := stripRight (stripLeft s)

/-- State of the matcher splitter loop in split_label_matchers:
collected parts, current buffer, single/double quote flags, escape flag. -/
structure SplitState where
  parts : List (List Char)
  buf : List Char
  in_single : Bool
  in_double : Bool
  esc : Bool
deriving DecidableEq

/-- One character of the loop body of the source splitter:
escape consumes the next character verbatim; a backslash sets the escape
flag; quotes toggle quote flags when the other quote is inactive; an
unquoted comma emits the stripped buffer as a part. -/
def split_step (st : SplitState) (ch : Char) : SplitState :=
  if st.esc = true then ⟨st.parts, st.buf ++ [ch], st.in_single, st.in_double, false⟩
  else if ch = '\\' then ⟨st.parts, st.buf ++ [ch], st.in_single, st.in_double, true⟩
  else if ch = '\x27' ∧ st.in_double = false then
    ⟨st.parts, st.buf ++ [ch], !st.in_single, st.in_double, false⟩
  else if ch = '\"' ∧ st.in_single = false then
    ⟨st.parts, st.buf ++ [ch], st.in_single, !st.in_double, false⟩
  else if ch = ',' ∧ st.in_single = false ∧ st.in_double = false then
    ⟨st.parts ++ [strip st.buf], [], st.in_single, st.in_double, false⟩
  else ⟨st.parts, st.buf ++ [ch], st.in_single, st.in_double, false⟩

/-- End of the source splitter: flush a nonempty buffer, drop empty parts. -/
def split_finish (st : SplitState) : List (List Char) :=
  (if st.buf.isEmpty then st.parts else st.parts ++ [strip st.buf]).filter
    (fun p => !p.isEmpty)

/-- The source function split_label_matchers. -/
def split_label_matchers (s : List Char) : List (List Char) :=
  split_finish (List.foldl split_step ⟨[], [], false, false, false⟩ s)

/-- ASCII identifier start, the character class of letters and underscore. -/
def isIdentStart (c : Char) : Bool :=
  ('A' ≤ c && c ≤ 'Z') || ('a' ≤ c && c ≤ 'z') || c = '_'

/-- ASCII identifier character: identifier start or digit. -/
def isIdentChar (c : Char) : Bool :=
  isIdentStart c || ('0' ≤ c && c ≤ '9')

/-- Placeholder alternative one: percent sign, one or more non-percent
characters, percent sign, matched at the head of the list. -/
def pctAt (l : List Char) : Bool :=
  match l with
  | '%' :: rest =>
      !(rest.takeWhile (fun c => c != '%')).isEmpty &&
      !(rest.dropWhile (fun c => c != '%')).isEmpty
  | _ => false

/-- Placeholder alternative two: double open brace, one or more non-close-brace
characters, double close brace, matched at the head of the list. -/
def dbraceAt (l : List Char) : Bool :=
  match l with
  | '\x7b' :: '\x7b' :: rest =>
      !(rest.takeWhile (fun c => c != '\x7d')).isEmpty &&
      (match rest.dropWhile (fun c => c != '\x7d') with
       | '\x7d' :: '\x7d' :: _ => true
       | _ => false)
  | _ => false

/-- Placeholder alternative three: dollar, open brace, one or more
non-close-brace characters, close brace, matched at the head of the list. -/
def dollarBraceAt (l : List Char) : Bool :=
  match l with
  | '$' :: '\x7b' :: rest =>
      !(rest.takeWhile (fun c => c != '\x7d')).isEmpty &&
      !(rest.dropWhile (fun c => c != '\x7d')).isEmpty
  | _ => false

/-- Placeholder alternative four: dollar followed by an identifier,
matched at the head of the list. -/
def dollarIdentAt (l : List Char) : Bool :=
  match l with
  | '$' :: c :: _ => isIdentStart c
  | _ => false

/-- Any of the four placeholder alternatives matches at the head. -/
def placeholder_at (l : List Char) : Bool :=
  pctAt l || dbraceAt l || dollarBraceAt l || dollarIdentAt l

/-- The source predicate has_placeholder: the placeholder regex search
succeeds, i.e. some alternative matches at some position. -/
def has_placeholder : List Char → Bool
  | [] => false
  | c :: cs => placeholder_at (c :: cs) || has_placeholder cs

/-- Operator alternation of the label-matcher regex, in source order. -/
def parseOp (l : List Char) : Option (List Char × List Char) :=
  match l with
  | '=' :: '~' :: rest => some (['=', '~'], rest)
  | '!' :: '~' :: rest => some (['!', '~'], rest)
  | '=' :: rest => some (['='], rest)
  | '!' :: '=' :: rest => some (['!', '='], rest)
  | _ => none

/-- The label-matcher regex: optional whitespace, identifier key, optional
whitespace, operator, optional whitespace, value (at least one character,
no newline since the dot class excludes it), trailing whitespace dropped. -/
def parse_label_matcher (m : List Char) : Option (List Char × List Char × List Char) :=
  match m.dropWhile isSpace with
  | [] => none
  | c :: rest =>
    if isIdentStart c then
      match parseOp ((rest.dropWhile isIdentChar).dropWhile isSpace) with
      | some (op, afterOp) =>
          let val := strip afterOp
          if val.isEmpty then none
          else if val.contains '\n' then none
          else some (c :: rest.takeWhile isIdentChar, op, val)
      | none => none
    else none

/-- Strip one layer of matching quotes from a value, as in the source. -/
def unquote_val (v : List Char) : List Char :=
  if 2 ≤ v.length ∧
     ((v.head? = some '\"' ∧ v.getLast? = some '\"') ∨
      (v.head? = some '\x27' ∧ v.getLast? = some '\x27'))
  then (v.drop 1).dropLast
  else v

/-- Keep-or-drop decision of reconstruct_labelset for one matcher fragment:
an unparseable fragment is kept stripped; a parsed matcher is dropped when
its unquoted value has a placeholder, else kept as key, operator and value
concatenated. -/
def kept_matcher (m : List Char) : Option (List Char) :=
  match parse_label_matcher (strip m) with
  | none => some (strip m)
  | some (key, op, val) =>
      if has_placeholder (unquote_val val) then none
      else some (key ++ op ++ val)

/-- Python str.join with a comma-space separator. -/
def join_comma : List (List Char) → List Char
  | [] => []
  | [p] => p
  | p :: ps => p ++ [',', ' '] ++ join_comma ps

/-- The source function reconstruct_labelset; the empty list is the
remove-entire-label-set signal. -/
def reconstruct_labelset (content : List Char) : List Char :=
  let kept := (split_label_matchers content).filterMap kept_matcher
  if kept.isEmpty then [] else '\x7b' :: join_comma kept ++ ['\x7d']

/-- Mode of the scanner: top level with two quote flags, or inside a
captured block with a depth counter, two block quote flags and the
captured content. -/
inductive Mode where
  | top (in_single in_double : Bool) : Mode
  | block (depth : Nat) (sub_single sub_double : Bool) (content : List Char) : Mode
deriving DecidableEq

/-- Scanner state: emitted output and current mode. -/
structure ScanState where
  out : List Char
  mode : Mode
deriving DecidableEq

/-- Line 178 of the source: a captured interior containing any brace
character is wrapped verbatim, otherwise it is reconstructed. -/
def rebuild_block (content : List Char) : List Char :=
  if '\x7b' ∈ content ∨ '\x7d' ∈ content
  then '\x7b' :: content ++ ['\x7d']
  else reconstruct_labelset content

/-- One character of the scanner loop of clean_query. At top level quotes
toggle and an unquoted open brace starts a capture; inside a block quotes
toggle the block flags, unquoted braces adjust depth, and when depth
returns to zero the rebuilt block is emitted. There is no escape handling,
exactly as in the source. -/
def scan_step (st : ScanState) (ch : Char) : ScanState :=
  match st.mode with
  | Mode.top s d =>
      if ch = '\x27' ∧ d = false then ⟨st.out ++ [ch], Mode.top (!s) d⟩
      else if ch = '\"' ∧ s = false then ⟨st.out ++ [ch], Mode.top s (!d)⟩
      else if ch = '\x7b' ∧ s = false ∧ d = false then ⟨st.out, Mode.block 1 false false []⟩
      else ⟨st.out ++ [ch], Mode.top s d⟩
  | Mode.block depth ss sd content =>
      if ch = '\x27' ∧ sd = false then ⟨st.out, Mode.block depth (!ss) sd (content ++ [ch])⟩
      else if ch = '\"' ∧ ss = false then ⟨st.out, Mode.block depth ss (!sd) (content ++ [ch])⟩
      else if ch = '\x7b' ∧ ss = false ∧ sd = false then
        ⟨st.out, Mode.block (depth + 1) ss sd (content ++ [ch])⟩
      else if ch = '\x7d' ∧ ss = false ∧ sd = false then
        if depth = 1 then ⟨st.out ++ rebuild_block content, Mode.top false false⟩
        else ⟨st.out, Mode.block (depth - 1) ss sd (content ++ [ch])⟩
      else ⟨st.out, Mode.block depth ss sd (content ++ [ch])⟩

/-- End of the scanner: an unterminated capture is rebuilt from its
content exactly like a closed one, as in the source. -/
def scan_finish (st : ScanState) : List Char :=
  match st.mode with
  | Mode.top _ _ => st.out
  | Mode.block _ _ _ content => st.out ++ rebuild_block content

/-- Python str.replace for a two-character pattern replaced by one
character: left to right, non-overlapping, replacement not rescanned. -/
def replace_pair (p1 p2 r : Char) : List Char → List Char
  | c1 :: c2 :: rest =>
      if c1 = p1 ∧ c2 = p2 then r :: replace_pair p1 p2 r rest
      else c1 :: replace_pair p1 p2 r (c2 :: rest)
  | l => l

/-- The source function clean_query on character lists: scan, then
normalize open-brace-space and space-close-brace. -/
def clean_query_list (cs : List Char) : List Char :=
  replace_pair ' ' '\x7d' '\x7d'
    (replace_pair '\x7b' ' ' '\x7b'
      (scan_finish (List.foldl scan_step ⟨[], Mode.top false false⟩ cs)))

/-- The source function clean_query on strings. -/
def clean_query (s : String) : String :=
  String.mk (clean_query_list s.data)

/-- Fueled variant of the scanner loop, one unit of fuel per character;
none models non-termination of the loop within the given fuel. -/
def scan_fuel : Nat → ScanState → List Char → Option ScanState
  | _, st, [] => some st
  | 0, _, _ :: _ => none
  | f + 1, st, c :: cs => scan_fuel f (scan_step st c) cs

/-- The pure quote automaton shared by the scanner's top level and its
block capture: single quote toggles when double is inactive and vice
versa; every other character leaves the flags unchanged. -/
def quote_step (p : Bool × Bool) (c : Char) : Bool × Bool :=
  if c = '\x27' ∧ p.2 = false then (!p.1, p.2)
  else if c = '\"' ∧ p.1 = false then (p.1, !p.2)
  else p

/-- Whether the two-character pattern occurs somewhere in the list. -/
def contains_pair (p1 p2 : Char) : List Char → Bool
  | c1 :: c2 :: rest =>
      if c1 = p1 ∧ c2 = p2 then true else contains_pair p1 p2 (c2 :: rest)
  | _ => false

/-- Run of the splitter automaton over a fragment that is expected to
produce no part: returns the final quote and escape flags, or none if an
unquoted comma (a split point) is encountered. Mirrors split_step. -/
def buf_run : Bool → Bool → Bool → List Char → Option (Bool × Bool × Bool)
  | s, d, e, [] => some (s, d, e)
  | s, d, e, c :: cs =>
      if e = true then buf_run s d false cs
      else if c = '\\' then buf_run s d true cs
      else if c = '\x27' ∧ d = false then buf_run (!s) d false cs
      else if c = '\"' ∧ s = false then buf_run s (!d) false cs
      else if c = ',' ∧ s = false ∧ d = false then none
      else buf_run s d false cs

/-- Spec-side reading of the first placeholder alternative: a percent
sign, a nonempty run of non-percent characters, a percent sign. -/
def IsPctTok (t : List Char) : Prop :=
  ∃ mid, t = '%' :: (mid ++ ['%']) ∧ mid ≠ [] ∧ ∀ c ∈ mid, c ≠ '%'

/-- Spec-side reading of the second placeholder alternative: two open
braces, a nonempty run of non-close-brace characters, two close braces. -/
def IsDBraceTok (t : List Char) : Prop :=
  ∃ mid, t = '\x7b' :: '\x7b' :: (mid ++ ['\x7d', '\x7d']) ∧ mid ≠ [] ∧ ∀ c ∈ mid, c ≠ '\x7d'

/-- Spec-side reading of the third placeholder alternative: dollar, open
brace, a nonempty run of non-close-brace characters, close brace. -/
def IsDollarBraceTok (t : List Char) : Prop :=
  ∃ mid, t = '$' :: '\x7b' :: (mid ++ ['\x7d']) ∧ mid ≠ [] ∧ ∀ c ∈ mid, c ≠ '\x7d'

/-- Spec-side reading of the fourth placeholder alternative: dollar
followed by an identifier-start character. -/
def IsDollarIdentTok (t : List Char) : Prop :=
  ∃ c, t = ['$', c] ∧ isIdentStart c = true

/-- Spec-side placeholder search: some substring is one of the four
placeholder token forms. -/
def PlaceholderSpec (s : List Char) : Prop :=
  ∃ p t q, s = p ++ (t ++ q) ∧
    (IsPctTok t ∨ IsDBraceTok t ∨ IsDollarBraceTok t ∨ IsDollarIdentTok t)

end Conf2VMRule

namespace Conf2VMRule

/-! ## Replace-pass lemmas -/

lemma replace_pair_of_not_contains (p1 p2 r : Char) :
    ∀ cs : List Char, contains_pair p1 p2 cs = false → replace_pair p1 p2 r cs = cs := by
  intro cs
  induction cs with
  | nil => intro _; rfl
  | cons c1 rest ih =>
    cases rest with
    | nil => intro _; rfl
    | cons c2 rest2 =>
      intro h
      simp only [contains_pair] at h
      split_ifs at h with hc
      simp only [replace_pair, if_neg hc]
      rw [ih h]

lemma contains_pair_false_of_fst_not_mem (p1 p2 : Char) :
    ∀ cs : List Char, p1 ∉ cs → contains_pair p1 p2 cs = false := by
  intro cs
  induction cs with
  | nil => intro _; rfl
  | cons c1 rest ih =>
    cases rest with
    | nil => intro _; rfl
    | cons c2 rest2 =>
      intro h
      simp only [List.mem_cons, not_or] at h
      simp only [contains_pair]
      rw [if_neg (fun hc => h.1 hc.1.symm)]
      exact ih (by simp [List.mem_cons, not_or, h.2.1, h.2.2])

lemma contains_pair_false_of_snd_not_mem (p1 p2 : Char) :
    ∀ cs : List Char, p2 ∉ cs → contains_pair p1 p2 cs = false := by
  intro cs
  induction cs with
  | nil => intro _; rfl
  | cons c1 rest ih =>
    cases rest with
    | nil => intro _; rfl
    | cons c2 rest2 =>
      intro h
      simp only [List.mem_cons, not_or] at h
      simp only [contains_pair]
      rw [if_neg (fun hc => h.2.1 hc.2.symm)]
      exact ih (by simp [List.mem_cons, not_or, h.2.1, h.2.2])

/-! ## Scanner lemmas -/

lemma scan_step_top (out : List Char) (s d : Bool) (c : Char) (hc : c ≠ '\x7b') :
    scan_step ⟨out, Mode.top s d⟩ c =
      ⟨out ++ [c], Mode.top (quote_step (s, d) c).1 (quote_step (s, d) c).2⟩ := by
  simp only [scan_step, quote_step]
  split_ifs with h1 h2 h3 <;> simp_all

lemma scan_step_block (out content : List Char) (depth : Nat) (ss sd : Bool) (c : Char)
    (hb : c ≠ '\x7b') (hb2 : c ≠ '\x7d') :
    scan_step ⟨out, Mode.block depth ss sd content⟩ c =
      ⟨out, Mode.block depth (quote_step (ss, sd) c).1 (quote_step (ss, sd) c).2
        (content ++ [c])⟩ := by
  simp only [scan_step, quote_step]
  split_ifs with h1 h2 h3 h4 <;> simp_all

lemma scan_foldl_top :
    ∀ (cs out : List Char) (s d : Bool), '\x7b' ∉ cs →
      List.foldl scan_step ⟨out, Mode.top s d⟩ cs =
        ⟨out ++ cs, Mode.top (List.foldl quote_step (s, d) cs).1
          (List.foldl quote_step (s, d) cs).2⟩ := by
  intro cs
  induction cs with
  | nil => intro out s d _; simp
  | cons c cs ih =>
    intro out s d h
    simp only [List.mem_cons, not_or] at h
    rw [List.foldl_cons, List.foldl_cons, scan_step_top out s d c (fun e => h.1 e.symm),
      ih (out ++ [c]) _ _ h.2]
    simp

lemma scan_foldl_block :
    ∀ (cs out content : List Char) (depth : Nat) (ss sd : Bool), '\x7b' ∉ cs → '\x7d' ∉ cs →
      List.foldl scan_step ⟨out, Mode.block depth ss sd content⟩ cs =
        ⟨out, Mode.block depth (List.foldl quote_step (ss, sd) cs).1
          (List.foldl quote_step (ss, sd) cs).2 (content ++ cs)⟩ := by
  intro cs
  induction cs with
  | nil => intro out content depth ss sd _ _; simp
  | cons c cs ih =>
    intro out content depth ss sd h h'
    simp only [List.mem_cons, not_or] at h h'
    rw [List.foldl_cons, List.foldl_cons,
      scan_step_block out content depth ss sd c (fun e => h.1 e.symm) (fun e => h'.1 e.symm),
      ih out (content ++ [c]) _ _ _ h.2 h'.2]
    simp

lemma scan_open (out : List Char) :
    scan_step ⟨out, Mode.top false false⟩ '\x7b' = ⟨out, Mode.block 1 false false []⟩ := by
  simp [scan_step]

lemma scan_close (out content : List Char) :
    scan_step ⟨out, Mode.block 1 false false content⟩ '\x7d' =
      ⟨out ++ rebuild_block content, Mode.top false false⟩ := by
  simp [scan_step]

lemma clean_query_list_id (cs : List Char) (h1 : '\x7b' ∉ cs)
    (h2 : contains_pair ' ' '\x7d' cs = false) : clean_query_list cs = cs := by
  unfold clean_query_list
  rw [scan_foldl_top cs [] false false h1]
  simp only [scan_finish, List.nil_append]
  rw [replace_pair_of_not_contains _ _ _ cs (contains_pair_false_of_fst_not_mem _ _ cs h1)]
  exact replace_pair_of_not_contains _ _ _ cs h2

/-! ## Splitter lemmas -/

lemma split_comma_quoted (st : SplitState) (he : st.esc = false)
    (hq : st.in_single = true ∨ st.in_double = true) :
    (split_step st ',').parts = st.parts ∧ (split_step st ',').buf = st.buf ++ [','] := by
  rcases hq with h | h <;> simp [split_step, he, h]

lemma split_esc_verbatim (st : SplitState) (c : Char) (he : st.esc = false) :
    (split_step (split_step st '\\') c).in_single = st.in_single ∧
    (split_step (split_step st '\\') c).in_double = st.in_double ∧
    (split_step (split_step st '\\') c).parts = st.parts ∧
    (split_step (split_step st '\\') c).buf = st.buf ++ ['\\', c] := by
  simp [split_step, he]

lemma scan_escaped_quote_toggles (out : List Char) :
    List.foldl scan_step ⟨out, Mode.top false true⟩ ['\\', '\"'] =
      ⟨out ++ ['\\', '\"'], Mode.top false false⟩ := by
  rw [List.foldl_cons, List.foldl_cons, List.foldl_nil]
  simp [scan_step]

end Conf2VMRule

namespace Conf2VMRule

/-! ## Claim theorems -/

/-- C1: the claim says a block whose interior has no unescaped, unquoted
open brace and whose matchers all carry placeholder-bearing values is
removed entirely. The code instead treats an interior containing any brace
character, even one inside quotes, as nested and preserves it verbatim:
here both matcher values carry placeholder tokens, yet the block survives
unchanged because one quoted value contains a close brace. -/
theorem c1_block_with_quoted_brace_not_removed :
    clean_query "m\x7ba=\"%P%\",b=\"\x7d %Q%\"\x7d" = "m\x7ba=\"%P%\",b=\"\x7d %Q%\"\x7d" ∧
    has_placeholder (unquote_val ("\"%P%\"".data)) = true ∧
    has_placeholder (unquote_val ("\"\x7d %Q%\"".data)) = true := by
  refine ⟨?_, by decide, by decide⟩
  decide

/-- C2: the claim (and the spec's worked example) says the selector whose
single matcher value is a dollar-brace placeholder is removed; evaluating
the code shows the expression is returned unchanged, because the quoted
placeholder itself contains brace characters so the interior takes the
preserve-verbatim nested path. -/
theorem c2_spec_example_not_cleaned :
    clean_query "rate(requests_total\x7benv=\"$\x7bENV\x7d\"\x7d[5m])" =
      "rate(requests_total\x7benv=\"$\x7bENV\x7d\"\x7d[5m])" ∧
    clean_query "rate(requests_total\x7benv=\"$\x7bENV\x7d\"\x7d[5m])" ≠
      "rate(requests_total[5m])" := by
  constructor
  · decide
  · decide

/-- C3 (amended): when end-of-input is reached inside a block capture no
error occurs, but the tail is not passed through literally; for a
brace-free, quote-balanced tail the scanner behaves exactly as if the
block had been closed at end-of-input. -/
theorem c3_unterminated_block_as_if_closed (cs : List Char)
    (h1 : '\x7b' ∉ cs) (h2 : '\x7d' ∉ cs)
    (hq : List.foldl quote_step (false, false) cs = (false, false)) :
    clean_query_list ('\x7b' :: cs) = clean_query_list ('\x7b' :: cs ++ ['\x7d']) := by
  unfold clean_query_list
  have L : List.foldl scan_step ⟨[], Mode.top false false⟩ ('\x7b' :: cs) =
      ⟨[], Mode.block 1 (List.foldl quote_step (false, false) cs).1
        (List.foldl quote_step (false, false) cs).2 cs⟩ := by
    rw [List.foldl_cons, scan_open, scan_foldl_block cs [] [] 1 false false h1 h2]
    simp
  have R : List.foldl scan_step ⟨[], Mode.top false false⟩ ('\x7b' :: cs ++ ['\x7d']) =
      ⟨[] ++ rebuild_block cs, Mode.top false false⟩ := by
    have hsplit : '\x7b' :: cs ++ ['\x7d'] = ('\x7b' :: cs) ++ ['\x7d'] := by simp
    rw [hsplit, List.foldl_append, L, hq, List.foldl_cons, List.foldl_nil, scan_close]
  rw [L, R]
  simp [scan_finish]

/-- Witness for C3 at a concrete quote-balanced brace-free tail. -/
theorem c3_witness :
    clean_query_list ('\x7b' :: ("x=\"v\"").data) =
      clean_query_list ('\x7b' :: ("x=\"v\"").data ++ ['\x7d']) :=
  c3_unterminated_block_as_if_closed (("x=\"v\"").data) (by decide) (by decide) (by decide)

/-- C3 counterexample: the claim as stated says the unconsumed tail appears
in the output unchanged; on this input the output gains a synthesized
closing brace, so it differs from the input. -/
theorem c3_counterexample : clean_query "a\x7bx=\"v\"" ≠ "a\x7bx=\"v\"" := by
  decide

/-- C4 (amended): clean_query is the identity on inputs containing no open
brace and no occurrence of the two-character sequence space-close-brace;
the final whitespace normalization rewrites such sequences even when no
block was ever captured. -/
theorem c4_identity_without_open_brace (s : String) (h1 : '\x7b' ∉ s.data)
    (h2 : contains_pair ' ' '\x7d' s.data = false) : clean_query s = s := by
  show String.mk (clean_query_list s.data) = s
  rw [clean_query_list_id s.data h1 h2]

/-- Witness for C4 at a concrete brace-free input. -/
theorem c4_witness : clean_query "abc" = "abc" :=
  c4_identity_without_open_brace "abc" (by decide) (by decide)

/-- C4 counterexample: an input with no open brace on which clean_query is
not the identity, because the space before the close brace is eaten by the
final replace pass. -/
theorem c4_counterexample :
    '\x7b' ∉ ("a \x7d").data ∧ clean_query "a \x7d" ≠ "a \x7d" := by
  constructor
  · decide
  · decide

/-- C5 (amended): the splitter is backslash-escape aware — after a
backslash the next character is consumed verbatim with quote flags, parts
and split decisions unaffected, and an unquoted-state comma never splits
inside an active quoted region — but the scanner is not: a backslash there
is an ordinary character, so an escaped double quote toggles the scanner's
double-quote state. -/
theorem c5_splitter_escape_aware_scanner_not :
    (∀ (st : SplitState) (c : Char), st.esc = false →
      (split_step (split_step st '\\') c).in_single = st.in_single ∧
      (split_step (split_step st '\\') c).in_double = st.in_double ∧
      (split_step (split_step st '\\') c).parts = st.parts ∧
      (split_step (split_step st '\\') c).buf = st.buf ++ ['\\', c]) ∧
    (∀ st : SplitState, st.esc = false → st.in_single = true ∨ st.in_double = true →
      (split_step st ',').parts = st.parts ∧ (split_step st ',').buf = st.buf ++ [',']) ∧
    (∀ out : List Char,
      List.foldl scan_step ⟨out, Mode.top false true⟩ ['\\', '\"'] =
        ⟨out ++ ['\\', '\"'], Mode.top false false⟩) :=
  ⟨fun st c he => split_esc_verbatim st c he,
   fun st he hq => split_comma_quoted st he hq,
   scan_escaped_quote_toggles⟩

/-- Witness for C5 at concrete states. -/
theorem c5_witness :
    (split_step (split_step ⟨[], [], false, true, false⟩ '\\') '\"').in_double = true ∧
    (split_step ⟨[], ['x'], true, false, false⟩ ',').parts = [] ∧
    List.foldl scan_step ⟨[], Mode.top false true⟩ ['\\', '\"'] =
      ⟨['\\', '\"'], Mode.top false false⟩ :=
  ⟨(c5_splitter_escape_aware_scanner_not.1 ⟨[], [], false, true, false⟩ '\"' rfl).2.1,
   (c5_splitter_escape_aware_scanner_not.2.1 ⟨[], ['x'], true, false, false⟩ rfl
      (Or.inl rfl)).1,
   c5_splitter_escape_aware_scanner_not.2.2 []⟩

/-- C5 counterexample: in the scanner an escaped double quote does toggle
the quote state — after scanning quote, letter, backslash, quote the
top-level state is unquoted again — and consequently a close brace sitting
inside what the claim regards as a quoted region terminates a block: the
whole bracketed input collapses to the two trailing characters. -/
theorem c5_counterexample :
    (List.foldl scan_step ⟨[], Mode.top false false⟩ ("\"a\\\"".data)).mode =
      Mode.top false false ∧
    clean_query "\x7ba=\"%P%\\\"\x7d\"\x7d" = "\"\x7d" := by
  constructor
  · decide
  · decide

/-- C7: the interior of the block in metric-label-equals-quoted-a-comma-b
splits into exactly one matcher fragment, and in general a comma seen in
an active quoted region of the splitter extends the buffer instead of
splitting. -/
theorem c7_comma_inside_quotes_never_splits :
    split_label_matchers ("label=\"a,b\"".data) = [("label=\"a,b\"").data] ∧
    (∀ st : SplitState, st.esc = false → st.in_single = true ∨ st.in_double = true →
      (split_step st ',').parts = st.parts ∧ (split_step st ',').buf = st.buf ++ [',']) :=
  ⟨by decide, fun st he hq => split_comma_quoted st he hq⟩

/-- Witness for C7 at a concrete quoted state. -/
theorem c7_witness :
    (split_step ⟨[], ['x'], false, true, false⟩ ',').buf = ['x', ','] ∧
    (split_step ⟨[], ['x'], false, true, false⟩ ',').parts = [] :=
  ⟨(c7_comma_inside_quotes_never_splits.2 ⟨[], ['x'], false, true, false⟩ rfl
      (Or.inr rfl)).2,
   (c7_comma_inside_quotes_never_splits.2 ⟨[], ['x'], false, true, false⟩ rfl
      (Or.inr rfl)).1⟩

/-- C8 (amended): clean_query is idempotent on inputs containing no brace
characters (it is the identity there); in general idempotence fails
because the whitespace normalization is a single textual pass. -/
theorem c8_idempotent_on_brace_free (s : String) (h1 : '\x7b' ∉ s.data)
    (h2 : '\x7d' ∉ s.data) : clean_query (clean_query s) = clean_query s := by
  have hid : clean_query s = s := by
    show String.mk (clean_query_list s.data) = s
    rw [clean_query_list_id s.data h1 (contains_pair_false_of_snd_not_mem _ _ _ h2)]
  rw [hid]
  exact hid

/-- Witness for C8 at a concrete brace-free expression. -/
theorem c8_witness :
    clean_query (clean_query "rate(x[5m])") = clean_query "rate(x[5m])" :=
  c8_idempotent_on_brace_free "rate(x[5m])" (by decide) (by decide)

/-- C8 counterexample: an input with balanced quoting (one single-quoted
region, a close brace and two spaces inside it) on which applying
clean_query twice differs from applying it once: each application removes
one more space before the close brace. -/
theorem c8_counterexample :
    clean_query (clean_query "x\x27a  \x7d\x27") ≠ clean_query "x\x27a  \x7d\x27" := by
  decide

end Conf2VMRule

namespace Conf2VMRule

/-! ## Fuel lemmas and C9 -/

lemma scan_fuel_sufficient :
    ∀ (cs : List Char) (st : ScanState) (f : Nat), cs.length ≤ f →
      scan_fuel f st cs = some (List.foldl scan_step st cs) := by
  intro cs
  induction cs with
  | nil =>
    intro st f _
    cases f <;> rfl
  | cons c cs ih =>
    intro st f h
    cases f with
    | zero => simp at h
    | succ f =>
      rw [show scan_fuel (f + 1) st (c :: cs) = scan_fuel f (scan_step st c) cs from rfl,
        List.foldl_cons]
      exact ih (scan_step st c) f (by simp at h; omega)

/-- C9: the scanner loop of clean_query terminates within one step per
input character — with that much fuel the fueled loop returns exactly the
total function's state — and a matcher fragment on which the label-matcher
parse fails is handled by the keep-original fallback rather than an error. -/
theorem c9_scanner_terminates_and_parse_failure_falls_back :
    (∀ (s : String) (fuel : Nat), s.data.length ≤ fuel →
      scan_fuel fuel ⟨[], Mode.top false false⟩ s.data =
        some (List.foldl scan_step ⟨[], Mode.top false false⟩ s.data)) ∧
    (∀ m : List Char, parse_label_matcher (strip m) = none →
      kept_matcher m = some (strip m)) :=
  ⟨fun s fuel h => scan_fuel_sufficient s.data _ fuel h,
   fun m h => by simp [kept_matcher, h]⟩

/-- Witness for C9: a concrete three-character input with exactly enough
fuel, and a concrete unparseable fragment that is kept as-is. -/
theorem c9_witness :
    scan_fuel 3 ⟨[], Mode.top false false⟩ ("a\x7bb".data) =
      some (List.foldl scan_step ⟨[], Mode.top false false⟩ ("a\x7bb".data)) ∧
    kept_matcher ("???".data) = some (("???").data) :=
  ⟨c9_scanner_terminates_and_parse_failure_falls_back.1 "a\x7bb" 3 (by decide),
   c9_scanner_terminates_and_parse_failure_falls_back.2 ("???".data) (by decide)⟩

/-! ## Placeholder characterization lemmas and C10 -/

lemma tw_append_of (p : Char → Bool) :
    ∀ (mid : List Char) (x : Char) (r : List Char), (∀ c ∈ mid, p c = true) → p x = false →
      (mid ++ x :: r).takeWhile p = mid ∧ (mid ++ x :: r).dropWhile p = x :: r := by
  intro mid
  induction mid with
  | nil =>
    intro x r _ hx
    constructor <;> simp [List.takeWhile_cons, List.dropWhile_cons, hx]
  | cons a mid ih =>
    intro x r hall hx
    have ha := hall a (List.mem_cons_self a mid)
    have hrec := ih x r (fun c hc => hall c (List.mem_cons_of_mem a hc)) hx
    constructor <;> simp [List.takeWhile_cons, List.dropWhile_cons, ha, hrec.1, hrec.2]

lemma dropWhile_hd_false (p : Char → Bool) :
    ∀ (l : List Char) (c : Char) (cs : List Char), l.dropWhile p = c :: cs → p c = false := by
  intro l
  induction l with
  | nil => intro c cs h; simp at h
  | cons a l ih =>
    intro c cs h
    rw [List.dropWhile_cons] at h
    split_ifs at h with hp
    · exact ih c cs h
    · injection h with h1 _
      subst h1
      simpa using hp

lemma pctAt_token (l : List Char) (h : pctAt l = true) : ∃ t q, l = t ++ q ∧ IsPctTok t := by
  rw [pctAt.eq_def] at h
  split at h
  case _ rest =>
    simp only [Bool.and_eq_true, Bool.not_eq_true'] at h
    cases hdrop : rest.dropWhile (fun c => c != '%') with
    | nil => rw [hdrop] at h; simp at h
    | cons r0 rest2 =>
      have hr0 : (r0 != '%') = false := dropWhile_hd_false _ rest r0 rest2 hdrop
      have hr0' : r0 = '%' := by simpa using hr0
      refine ⟨'%' :: (rest.takeWhile (fun c => c != '%') ++ ['%']), rest2, ?_, ?_⟩
      · have hsplit : rest.takeWhile (fun c => c != '%') ++
            rest.dropWhile (fun c => c != '%') = rest :=
          List.takeWhile_append_dropWhile _ _
        rw [hdrop, hr0'] at hsplit
        conv_lhs => rw [← hsplit]
        simp
      · refine ⟨rest.takeWhile (fun c => c != '%'), rfl, ?_, ?_⟩
        · intro e; rw [e] at h; simp at h
        · intro c hc
          have := List.mem_takeWhile_imp hc
          simpa using this
  case _ => simp at h

lemma dollarBraceAt_token (l : List Char) (h : dollarBraceAt l = true) :
    ∃ t q, l = t ++ q ∧ IsDollarBraceTok t := by
  rw [dollarBraceAt.eq_def] at h
  split at h
  case _ rest =>
    simp only [Bool.and_eq_true, Bool.not_eq_true'] at h
    cases hdrop : rest.dropWhile (fun c => c != '\x7d') with
    | nil => rw [hdrop] at h; simp at h
    | cons r0 rest2 =>
      have hr0 : (r0 != '\x7d') = false := dropWhile_hd_false _ rest r0 rest2 hdrop
      have hr0' : r0 = '\x7d' := by simpa using hr0
      refine ⟨'$' :: '\x7b' :: (rest.takeWhile (fun c => c != '\x7d') ++ ['\x7d']), rest2, ?_, ?_⟩
      · have hsplit : rest.takeWhile (fun c => c != '\x7d') ++
            rest.dropWhile (fun c => c != '\x7d') = rest :=
          List.takeWhile_append_dropWhile _ _
        rw [hdrop, hr0'] at hsplit
        conv_lhs => rw [← hsplit]
        simp
      · refine ⟨rest.takeWhile (fun c => c != '\x7d'), rfl, ?_, ?_⟩
        · intro e; rw [e] at h; simp at h
        · intro c hc
          have := List.mem_takeWhile_imp hc
          simpa using this
  case _ => simp at h

lemma dbraceAt_token (l : List Char) (h : dbraceAt l = true) :
    ∃ t q, l = t ++ q ∧ IsDBraceTok t := by
  rw [dbraceAt.eq_def] at h
  split at h
  case _ rest =>
    simp only [Bool.and_eq_true, Bool.not_eq_true'] at h
    obtain ⟨h1, h2⟩ := h
    cases hdrop : rest.dropWhile (fun c => c != '\x7d') with
    | nil => rw [hdrop] at h2; simp at h2
    | cons r0 rest2 =>
      rw [hdrop] at h2
      have hr0 : (r0 != '\x7d') = false := dropWhile_hd_false _ rest r0 rest2 hdrop
      have hr0' : r0 = '\x7d' := by simpa using hr0
      cases rest2 with
      | nil => rw [hr0'] at h2; simp at h2
      | cons r1 rest3 =>
        by_cases hr1 : r1 = '\x7d'
        · refine ⟨'\x7b' :: '\x7b' :: (rest.takeWhile (fun c => c != '\x7d') ++
            ['\x7d', '\x7d']), rest3, ?_, ?_⟩
          · have hsplit : rest.takeWhile (fun c => c != '\x7d') ++
                rest.dropWhile (fun c => c != '\x7d') = rest :=
              List.takeWhile_append_dropWhile _ _
            rw [hdrop, hr0', hr1] at hsplit
            conv_lhs => rw [← hsplit]
            simp
          · refine ⟨rest.takeWhile (fun c => c != '\x7d'), rfl, ?_, ?_⟩
            · intro e; rw [e] at h1; simp at h1
            · intro c hc
              have := List.mem_takeWhile_imp hc
              simpa using this
        · rw [hr0'] at h2
          simp [hr1] at h2
  case _ => simp at h

lemma dollarIdentAt_token (l : List Char) (h : dollarIdentAt l = true) :
    ∃ t q, l = t ++ q ∧ IsDollarIdentTok t := by
  rw [dollarIdentAt.eq_def] at h
  split at h
  case _ c rest => exact ⟨['$', c], rest, rfl, c, rfl, h⟩
  case _ => simp at h

lemma placeholder_at_token (l : List Char) (h : placeholder_at l = true) :
    ∃ t q, l = t ++ q ∧
      (IsPctTok t ∨ IsDBraceTok t ∨ IsDollarBraceTok t ∨ IsDollarIdentTok t) := by
  simp only [placeholder_at, Bool.or_eq_true] at h
  rcases h with ((hp | hb) | hd) | hi
  · obtain ⟨t, q, he, ht⟩ := pctAt_token l hp
    exact ⟨t, q, he, Or.inl ht⟩
  · obtain ⟨t, q, he, ht⟩ := dbraceAt_token l hb
    exact ⟨t, q, he, Or.inr (Or.inl ht)⟩
  · obtain ⟨t, q, he, ht⟩ := dollarBraceAt_token l hd
    exact ⟨t, q, he, Or.inr (Or.inr (Or.inl ht))⟩
  · obtain ⟨t, q, he, ht⟩ := dollarIdentAt_token l hi
    exact ⟨t, q, he, Or.inr (Or.inr (Or.inr ht))⟩

lemma token_placeholder_at (t q : List Char)
    (h : IsPctTok t ∨ IsDBraceTok t ∨ IsDollarBraceTok t ∨ IsDollarIdentTok t) :
    placeholder_at (t ++ q) = true := by
  rcases h with ⟨mid, rfl, hne, hall⟩ | ⟨mid, rfl, hne, hall⟩ |
    ⟨mid, rfl, hne, hall⟩ | ⟨c, rfl, hc⟩
  · have hmid : ∀ c ∈ mid, (fun c => c != '%') c = true := fun c hc => by
      simpa using hall c hc
    have htw := tw_append_of (fun c => c != '%') mid '%' q hmid (by simp)
    simp only [placeholder_at, Bool.or_eq_true]
    refine Or.inl (Or.inl (Or.inl ?_))
    have harr : ('%' :: (mid ++ ['%'])) ++ q = '%' :: (mid ++ '%' :: q) := by simp
    rw [harr, pctAt]
    simp [htw.1, htw.2, hne]
  · have hmid : ∀ c ∈ mid, (fun c => c != '\x7d') c = true := fun c hc => by
      simpa using hall c hc
    have htw := tw_append_of (fun c => c != '\x7d') mid '\x7d' ('\x7d' :: q) hmid (by simp)
    simp only [placeholder_at, Bool.or_eq_true]
    refine Or.inl (Or.inl (Or.inr ?_))
    have harr : ('\x7b' :: '\x7b' :: (mid ++ ['\x7d', '\x7d'])) ++ q =
        '\x7b' :: '\x7b' :: (mid ++ '\x7d' :: '\x7d' :: q) := by simp
    rw [harr, dbraceAt]
    simp [htw.1, htw.2, hne]
  · have hmid : ∀ c ∈ mid, (fun c => c != '\x7d') c = true := fun c hc => by
      simpa using hall c hc
    have htw := tw_append_of (fun c => c != '\x7d') mid '\x7d' q hmid (by simp)
    simp only [placeholder_at, Bool.or_eq_true]
    refine Or.inl (Or.inr ?_)
    have harr : ('$' :: '\x7b' :: (mid ++ ['\x7d'])) ++ q =
        '$' :: '\x7b' :: (mid ++ '\x7d' :: q) := by simp
    rw [harr, dollarBraceAt]
    simp [htw.1, htw.2, hne]
  · simp only [placeholder_at, Bool.or_eq_true]
    refine Or.inr ?_
    have harr : (['$', c]) ++ q = '$' :: c :: q := by simp
    rw [harr, dollarIdentAt]
    exact hc

lemma has_placeholder_append_left :
    ∀ (x y : List Char), has_placeholder y = true → has_placeholder (x ++ y) = true := by
  intro x y h
  induction x with
  | nil => simpa using h
  | cons c x ih => simp [has_placeholder, ih]

lemma has_placeholder_of_head (l : List Char) (h : placeholder_at l = true) :
    has_placeholder l = true := by
  cases l with
  | nil => simp [placeholder_at, pctAt, dbraceAt, dollarBraceAt, dollarIdentAt] at h
  | cons c cs => simp [has_placeholder, h]

lemma has_placeholder_spec : ∀ s : List Char, has_placeholder s = true → PlaceholderSpec s := by
  intro s
  induction s with
  | nil => intro h; simp [has_placeholder] at h
  | cons c cs ih =>
    intro h
    simp only [has_placeholder, Bool.or_eq_true] at h
    rcases h with h | h
    · obtain ⟨t, q, heq, htok⟩ := placeholder_at_token _ h
      exact ⟨[], t, q, by simpa using heq, htok⟩
    · obtain ⟨p, t, q, heq, htok⟩ := ih h
      exact ⟨c :: p, t, q, by simp [heq], htok⟩

lemma spec_has_placeholder : ∀ s : List Char, PlaceholderSpec s → has_placeholder s = true := by
  rintro s ⟨p, t, q, rfl, htok⟩
  exact has_placeholder_append_left p (t ++ q)
    (has_placeholder_of_head (t ++ q) (token_placeholder_at t q htok))

/-- C10: the placeholder detector returns true exactly when some substring
of the value is one of the four token forms (percent-run-percent,
double-brace run double-brace, dollar-brace run brace, dollar identifier);
in particular the quoted value ninety-percent-to-ninety-five-percent is
classified as placeholder-bearing and its matcher is dropped. -/
theorem c10_placeholder_detector_characterization :
    (∀ s : List Char, has_placeholder s = true ↔ PlaceholderSpec s) ∧
    has_placeholder (unquote_val ("\"90% to 95%\"".data)) = true ∧
    kept_matcher ("x=\"90% to 95%\"".data) = none :=
  ⟨fun s => ⟨has_placeholder_spec s, spec_has_placeholder s⟩, by decide, by decide⟩

end Conf2VMRule

namespace Conf2VMRule

/-! ## Splitter-over-joined-matchers lemmas and C6 -/

lemma ne_nil_isEmpty {α : Type} (l : List α) (h : l ≠ []) : l.isEmpty = false := by
  cases l with
  | nil => exact absurd rfl h
  | cons a l => rfl

lemma strip_cons_space (m : List Char) : strip (' ' :: m) = strip m := by
  simp [strip, stripLeft, List.dropWhile_cons, isSpace]

lemma strip_single_space : strip [' '] = [] := by decide

lemma buf_run_foldl :
    ∀ (cs : List Char) (s d e s' d' e' : Bool),
      buf_run s d e cs = some (s', d', e') →
      ∀ (P : List (List Char)) (B : List Char),
        List.foldl split_step ⟨P, B, s, d, e⟩ cs = ⟨P, B ++ cs, s', d', e'⟩ := by
  intro cs
  induction cs with
  | nil =>
    intro s d e s' d' e' h P B
    simp only [buf_run, Option.some.injEq, Prod.mk.injEq] at h
    obtain ⟨h1, h2, h3⟩ := h
    subst h1; subst h2; subst h3
    simp
  | cons c cs ih =>
    intro s d e s' d' e' h P B
    rw [List.foldl_cons]
    simp only [buf_run] at h
    split_ifs at h with h1 h2 h3 h4 h5
    · rw [show split_step ⟨P, B, s, d, e⟩ c = ⟨P, B ++ [c], s, d, false⟩ by
        simp [split_step, h1], ih _ _ _ _ _ _ h]
      simp
    · rw [show split_step ⟨P, B, s, d, e⟩ c = ⟨P, B ++ [c], s, d, true⟩ by
        simp [split_step, h1, h2], ih _ _ _ _ _ _ h]
      simp
    · rw [show split_step ⟨P, B, s, d, e⟩ c = ⟨P, B ++ [c], !s, d, false⟩ by
        simp [split_step, h1, h2, h3], ih _ _ _ _ _ _ h]
      simp
    · rw [show split_step ⟨P, B, s, d, e⟩ c = ⟨P, B ++ [c], s, !d, false⟩ by
        simp [split_step, h1, h2, h3, h4], ih _ _ _ _ _ _ h]
      simp
    · rw [show split_step ⟨P, B, s, d, e⟩ c = ⟨P, B ++ [c], s, d, false⟩ by
        simp [split_step, h1, h2, h3, h4, h5], ih _ _ _ _ _ _ h]
      simp

lemma split_fold_join :
    ∀ (ms : List (List Char)) (P : List (List Char)),
      (∀ m ∈ ms, m ≠ [] ∧ strip m = m ∧
        buf_run false false false m = some (false, false, false)) →
      split_finish (List.foldl split_step ⟨P, [' '], false, false, false⟩ (join_comma ms)) =
        P.filter (fun p => !p.isEmpty) ++ ms := by
  intro ms
  induction ms with
  | nil =>
    intro P _
    simp [join_comma, split_finish, strip_single_space, List.filter_append]
  | cons m rest ih =>
    intro P hall
    obtain ⟨hm1, hm2, hm3⟩ := hall m (List.mem_cons_self m rest)
    have hrest := fun m' hm' => hall m' (List.mem_cons_of_mem m hm')
    cases rest with
    | nil =>
      rw [show join_comma [m] = m from rfl,
        buf_run_foldl m false false false false false false hm3 P [' ']]
      rw [show ([' '] : List Char) ++ m = ' ' :: m from rfl]
      simp [split_finish, strip_cons_space, hm2, List.filter_append, ne_nil_isEmpty m hm1]
    | cons m2 rest2 =>
      have hj : join_comma (m :: m2 :: rest2) =
          m ++ (',' :: ' ' :: join_comma (m2 :: rest2)) := by
        simp [join_comma]
      rw [hj, List.foldl_append,
        buf_run_foldl m false false false false false false hm3 P [' '], List.foldl_cons]
      rw [show split_step ⟨P, [' '] ++ m, false, false, false⟩ ',' =
        ⟨P ++ [strip ([' '] ++ m)], [], false, false, false⟩ from by simp [split_step]]
      rw [show ([' '] : List Char) ++ m = ' ' :: m from rfl, strip_cons_space, hm2,
        List.foldl_cons]
      rw [show split_step ⟨P ++ [m], [], false, false, false⟩ ' ' =
        ⟨P ++ [m], [' '], false, false, false⟩ from by simp [split_step]]
      rw [ih (P ++ [m]) hrest]
      simp [List.filter_append, ne_nil_isEmpty m hm1]

lemma split_label_matchers_join :
    ∀ ms : List (List Char),
      (∀ m ∈ ms, m ≠ [] ∧ strip m = m ∧
        buf_run false false false m = some (false, false, false)) →
      split_label_matchers (join_comma ms) = ms := by
  intro ms hall
  cases ms with
  | nil => rfl
  | cons m rest =>
    obtain ⟨hm1, hm2, hm3⟩ := hall m (List.mem_cons_self m rest)
    have hrest := fun m' hm' => hall m' (List.mem_cons_of_mem m hm')
    cases rest with
    | nil =>
      unfold split_label_matchers
      rw [show join_comma [m] = m from rfl,
        buf_run_foldl m false false false false false false hm3 [] []]
      rw [show ([] : List Char) ++ m = m from rfl]
      simp [split_finish, hm2, ne_nil_isEmpty m hm1]
    | cons m2 rest2 =>
      unfold split_label_matchers
      have hj : join_comma (m :: m2 :: rest2) =
          m ++ (',' :: ' ' :: join_comma (m2 :: rest2)) := by
        simp [join_comma]
      rw [hj, List.foldl_append,
        buf_run_foldl m false false false false false false hm3 [] [], List.foldl_cons]
      rw [show split_step ⟨[], [] ++ m, false, false, false⟩ ',' =
        ⟨[strip ([] ++ m)], [], false, false, false⟩ from by simp [split_step]]
      rw [show ([] : List Char) ++ m = m from rfl, hm2, List.foldl_cons]
      rw [show split_step ⟨[m], [], false, false, false⟩ ' ' =
        ⟨[m], [' '], false, false, false⟩ from by simp [split_step]]
      rw [split_fold_join (m2 :: rest2) [m] hrest]
      simp [ne_nil_isEmpty m hm1]

lemma filterMap_kept_id :
    ∀ ms : List (List Char), (∀ m ∈ ms, kept_matcher m = some m) →
      ms.filterMap kept_matcher = ms := by
  intro ms
  induction ms with
  | nil => intro _; rfl
  | cons m rest ih =>
    intro h
    simp [List.filterMap_cons, h m (List.mem_cons_self m rest),
      ih (fun m' hm' => h m' (List.mem_cons_of_mem m hm'))]

lemma reconstruct_join (ms : List (List Char)) (hne : ms ≠ [])
    (hall : ∀ m ∈ ms, m ≠ [] ∧ strip m = m ∧
      buf_run false false false m = some (false, false, false) ∧ kept_matcher m = some m) :
    reconstruct_labelset (join_comma ms) = '\x7b' :: join_comma ms ++ ['\x7d'] := by
  unfold reconstruct_labelset
  rw [split_label_matchers_join ms
    (fun m hm => ⟨(hall m hm).1, (hall m hm).2.1, (hall m hm).2.2.1⟩)]
  rw [filterMap_kept_id ms (fun m hm => (hall m hm).2.2.2)]
  simp [ne_nil_isEmpty ms hne]

lemma not_mem_join_comma (c : Char) (hc1 : c ≠ ',') (hc2 : c ≠ ' ') :
    ∀ ms : List (List Char), (∀ m ∈ ms, c ∉ m) → c ∉ join_comma ms := by
  intro ms
  induction ms with
  | nil => intro _; simp [join_comma]
  | cons m rest ih =>
    intro h
    cases rest with
    | nil =>
      rw [show join_comma [m] = m from rfl]
      exact h m (List.mem_cons_self m [])
    | cons m2 rest2 =>
      have hj : join_comma (m :: m2 :: rest2) =
          m ++ (',' :: ' ' :: join_comma (m2 :: rest2)) := by
        simp [join_comma]
      rw [hj]
      intro hmem
      rcases List.mem_append.mp hmem with hm | hm
      · exact h m (List.mem_cons_self m (m2 :: rest2)) hm
      · rcases List.mem_cons.mp hm with he | hm'
        · exact hc1 he
        · rcases List.mem_cons.mp hm' with he | hm''
          · exact hc2 he
          · exact ih (fun m' hmm => h m' (List.mem_cons_of_mem m hmm)) hm''

/-- C6 (amended): a non-nested block whose matchers are all already in the
code's normal form (stripped, no brace characters, splitter-clean, kept
with the kept string equal to the fragment) and joined with comma-space is
returned by clean_query completely unchanged: every matcher is kept, in
order, with the comma-space separator. Matchers not in normal form are
rewritten (whitespace around the operator is dropped), so content is not
preserved verbatim in general — see the counterexample. -/
theorem c6_normalized_block_is_fixed_point (ms : List (List Char)) (hne : ms ≠ [])
    (hall : ∀ m ∈ ms, m ≠ [] ∧ strip m = m ∧ '\x7b' ∉ m ∧ '\x7d' ∉ m ∧
      buf_run false false false m = some (false, false, false) ∧ kept_matcher m = some m)
    (hq : List.foldl quote_step (false, false) (join_comma ms) = (false, false))
    (hp1 : contains_pair '\x7b' ' ' ('\x7b' :: join_comma ms ++ ['\x7d']) = false)
    (hp2 : contains_pair ' ' '\x7d' ('\x7b' :: join_comma ms ++ ['\x7d']) = false) :
    clean_query_list ('\x7b' :: join_comma ms ++ ['\x7d']) =
      '\x7b' :: join_comma ms ++ ['\x7d'] := by
  have hb1 : '\x7b' ∉ join_comma ms :=
    not_mem_join_comma _ (by decide) (by decide) ms (fun m hm => (hall m hm).2.2.1)
  have hb2 : '\x7d' ∉ join_comma ms :=
    not_mem_join_comma _ (by decide) (by decide) ms (fun m hm => (hall m hm).2.2.2.1)
  unfold clean_query_list
  have L : List.foldl scan_step ⟨[], Mode.top false false⟩ ('\x7b' :: join_comma ms) =
      ⟨[], Mode.block 1 false false (join_comma ms)⟩ := by
    rw [List.foldl_cons, scan_open,
      scan_foldl_block (join_comma ms) [] [] 1 false false hb1 hb2, hq]
    simp
  have S : List.foldl scan_step ⟨[], Mode.top false false⟩
      ('\x7b' :: join_comma ms ++ ['\x7d']) =
      ⟨[] ++ rebuild_block (join_comma ms), Mode.top false false⟩ := by
    rw [show '\x7b' :: join_comma ms ++ ['\x7d'] =
      ('\x7b' :: join_comma ms) ++ ['\x7d'] from by simp]
    rw [List.foldl_append, L, List.foldl_cons, List.foldl_nil, scan_close]
  rw [S]
  simp only [scan_finish, List.nil_append]
  have hrb : rebuild_block (join_comma ms) = '\x7b' :: join_comma ms ++ ['\x7d'] := by
    unfold rebuild_block
    rw [if_neg (by simp [hb1, hb2])]
    exact reconstruct_join ms hne (fun m hm =>
      ⟨(hall m hm).1, (hall m hm).2.1, (hall m hm).2.2.2.2.1, (hall m hm).2.2.2.2.2⟩)
  rw [hrb]
  rw [replace_pair_of_not_contains '\x7b' ' ' '\x7b' _ hp1,
    replace_pair_of_not_contains ' ' '\x7d' '\x7d' _ hp2]

/-- Witness for C6 at a concrete two-matcher block in normal form. -/
theorem c6_witness :
    clean_query "\x7benv=\"prod\", job=\"api\"\x7d" = "\x7benv=\"prod\", job=\"api\"\x7d" := by
  have h := c6_normalized_block_is_fixed_point
    ["env=\"prod\"".data, "job=\"api\"".data]
    (by decide) (by decide) (by decide) (by decide) (by decide)
  exact congrArg String.mk h

/-- C6 counterexample: a placeholder-free block whose matcher carries
whitespace around the operator is not returned with its content unchanged;
the whitespace is normalized away. -/
theorem c6_counterexample : clean_query "m\x7ba = \"b\"\x7d" ≠ "m\x7ba = \"b\"\x7d" := by
  decide

end Conf2VMRule
